import Mathlib

/-!
Verification of `mcp-server-whisper` against its natural-language
specification.  The Python sources are shallowly embedded as Lean
definitions; file paths are Lean `String`s, file modification times and
byte sizes are integers used only as opaque keys / ordered quantities,
and all I/O collaborators (filesystem reads, codec library, remote API)
are passed in as explicit function parameters.
-/

namespace Whisper

/-! ### Path-string helpers (embedding of `os.path` / `pathlib` behaviour) -/

/-- ASCII lowering of one character, as Python's `str.lower` acts on the
ASCII range (file extensions in this code base are ASCII). -/
def lowerChar (c : Char) : Char :=
  if 'A' ≤ c ∧ c ≤ 'Z' then Char.ofNat (c.toNat + 32) else c

/-- ASCII lowering of a string (`str.lower`). -/
def pyLower (s : String) : String := String.mk (s.toList.map lowerChar)

/-- Characters of the last `/`-separated component of a path
(`os.path.basename`). -/
def basenameChars (l : List Char) : List Char :=
  ((l.splitOn '/').getLast?).getD []

/-- The extension (with leading dot) that `os.path.splitext(p)[1]` returns:
the part of the basename from its last dot, provided some non-dot character
of the basename precedes that dot (leading dots never start an extension). -/
def splitextExt (p : String) : String :=
  let b := basenameChars p.toList
  if (b.dropWhile (· == '.')).contains '.' then
    String.mk ('.' :: (((b.splitOn '.').getLast?).getD []))
  else ""

/-! ### `infrastructure/cache.py`: `AudioFileCache` (an `lru_cache` model) -/

/-- Cache key used by `AudioFileCache`: `(file_path, mtime)`.  The mtime is
an opaque timestamp here; only its equality matters to the cache. -/
abbrev CacheKey : Type := String × Int

/-- The object `functools.lru_cache` actually stores for an `async def`:
the coroutine object returned by `_get_support_impl(...)`, not its
awaited result.  `value` is what the coroutine produces when awaited for
the first time; `awaited` records whether it has already been awaited —
awaiting it again raises `RuntimeError`. -/
structure CoroCell (V : Type) where
  value : V
  awaited : Bool
  deriving Repr, DecidableEq

/-- Embedding of the `functools.lru_cache` state wrapped by
`AudioFileCache.__init__`: an association list ordered from
least-recently-used (front) to most-recently-used (back), bounded by
`maxsize`.  Each entry holds the cached coroutine object (`CoroCell`),
since `lru_cache` is synchronous and memoizes the coroutine, not the
awaited result.  The real cache keys entries by the full argument tuple
`(file_path, mtime, get_support_func)`; the claims fix a single compute
function, so the key here is `(file_path, mtime)`. -/
structure AudioFileCache (V : Type) where
  maxsize : Nat
  entries : List (CacheKey × CoroCell V)
  deriving Repr

/-- `AudioFileCache.__init__`: an empty cache whose capacity defaults
to 32 entries. -/
def AudioFileCache.init (V : Type) (maxsize : Nat := 32) : AudioFileCache V :=
  { maxsize := maxsize, entries := [] }

/-- First value stored under key `k`, if any. -/
def lookupEntry {V : Type} (k : CacheKey) : List (CacheKey × V) → Option V
  | [] => none
  | e :: rest => if e.1 = k then some e.2 else lookupEntry k rest

/-- Remove every entry keyed `k`. -/
def removeKey {V : Type} (k : CacheKey) : List (CacheKey × V) → List (CacheKey × V)
  | [] => []
  | e :: rest => if e.1 = k then removeKey k rest else e :: removeKey k rest

/-- One call of `AudioFileCache.get_cached_audio_file_support` (i.e.
`await self._get_cached_support(...)`): returns the awaited outcome, the
new cache state, and whether `compute_fn` was invoked.  On a hit,
`lru_cache` moves the entry to most-recently-used and hands back the
stored coroutine object without invoking `compute_fn`; awaiting it then
raises `RuntimeError("cannot reuse already awaited coroutine")` if it was
already awaited, which every stored coroutine is after the call that
created it.  On a miss, `_get_support_impl(...)` is called — creating a
fresh coroutine that `lru_cache` inserts most-recently-used (discarding
the least-recently-used entry past capacity) — and the caller's await
runs `compute_fn(file_path)` and spends the stored coroutine. -/
def AudioFileCache.get {V : Type} (c : AudioFileCache V) (k : CacheKey)
    (compute_fn : String → V) : Except String V × AudioFileCache V × Bool :=
  match lookupEntry k c.entries with
  | some co =>
      ((if co.awaited then
          Except.error "cannot reuse already awaited coroutine"
        else Except.ok co.value),
       { c with entries :=
           removeKey k c.entries ++ [(k, { co with awaited := true })] },
       false)
  | none =>
      let co : CoroCell V := { value := compute_fn k.1, awaited := true }
      let es := c.entries ++ [(k, co)]
      (Except.ok co.value,
       { c with entries := if c.maxsize < es.length then es.tail else es },
       true)

/-- Fold a sequence of `get` calls over the cache, keeping the state. -/
def AudioFileCache.getAll {V : Type} (c : AudioFileCache V) (ks : List CacheKey)
    (compute_fn : String → V) : AudioFileCache V :=
  ks.foldl (fun c k => (c.get k compute_fn).2.1) c

/-- Whether key `k` is currently resident in the cache. -/
def AudioFileCache.resident {V : Type} (c : AudioFileCache V) (k : CacheKey) : Bool :=
  (lookupEntry k c.entries).isSome

/-- Keys currently resident, least-recently-used first. -/
def AudioFileCache.keyList {V : Type} (c : AudioFileCache V) : List CacheKey :=
  c.entries.map Prod.fst

example :
    ((AudioFileCache.init Nat 2).getAll
        [("a", 0), ("b", 0), ("c", 0)] String.length).keyList =
      [("b", 0), ("c", 0)] := by decide

example :
    (((AudioFileCache.init Nat 2).getAll
        [("a", 0), ("b", 0), ("a", 0), ("c", 0)] String.length)).keyList =
      [("a", 0), ("c", 0)] := by decide

theorem lookupEntry_append_of_none {V : Type} {k : CacheKey}
    {l l' : List (CacheKey × V)} (h : lookupEntry k l = none) :
    lookupEntry k (l ++ l') = lookupEntry k l' := by
  induction l with
  | nil => rfl
  | cons e rest ih =>
      by_cases he : e.1 = k
      · simp [lookupEntry, he] at h
      · simp only [lookupEntry, he, if_neg, List.cons_append] at h ⊢
        exact ih h

theorem lookupEntry_removeKey_self {V : Type} (k : CacheKey)
    (l : List (CacheKey × V)) : lookupEntry k (removeKey k l) = none := by
  induction l with
  | nil => rfl
  | cons e rest ih =>
      by_cases he : e.1 = k
      · simpa [removeKey, he] using ih
      · simpa [removeKey, lookupEntry, he] using ih

theorem lookupEntry_tail_of_none {V : Type} {k : CacheKey}
    {l : List (CacheKey × V)} (h : lookupEntry k l = none) :
    lookupEntry k l.tail = none := by
  cases l with
  | nil => rfl
  | cons e rest =>
      by_cases he : e.1 = k
      · simp [lookupEntry, he] at h
      · simpa [lookupEntry, he] using h

/-- `get` on a resident key: `lru_cache` hit — no compute, entry moved to
most-recently-used, the stored coroutine handed back and awaited (which
errors when it is already spent). -/
theorem get_hit {V : Type} {c : AudioFileCache V} {k : CacheKey}
    {co : CoroCell V}
    (f : String → V) (h : lookupEntry k c.entries = some co) :
    c.get k f =
      ((if co.awaited then
          Except.error "cannot reuse already awaited coroutine"
        else Except.ok co.value),
       { maxsize := c.maxsize,
         entries := removeKey k c.entries ++ [(k, { co with awaited := true })] },
       false) := by
  unfold AudioFileCache.get
  rw [h]

/-- `get` on an absent key: miss, compute invoked, the (immediately spent)
coroutine inserted most-recently-used, least-recently-used dropped past
capacity. -/
theorem get_miss {V : Type} {c : AudioFileCache V} {k : CacheKey}
    (f : String → V) (h : lookupEntry k c.entries = none) :
    c.get k f =
      (Except.ok (f k.1),
       { maxsize := c.maxsize,
         entries :=
           if c.maxsize <
               (c.entries ++
                 [(k, ({ value := f k.1, awaited := true } : CoroCell V))]).length then
             (c.entries ++
               [(k, ({ value := f k.1, awaited := true } : CoroCell V))]).tail
           else c.entries ++
             [(k, ({ value := f k.1, awaited := true } : CoroCell V))] },
       true) := by
  unfold AudioFileCache.get
  rw [h]

/-- After any `get`, the requested key is resident and holds an
already-awaited coroutine (the cache keeps at least the most recent entry
since `maxsize ≥ 1`). -/
theorem lookupEntry_after_get {V : Type} (c : AudioFileCache V)
    (hms : 1 ≤ c.maxsize) (k : CacheKey) (f : String → V) :
    ∃ co : CoroCell V,
      lookupEntry k ((c.get k f).2.1.entries) = some co ∧
      co.awaited = true := by
  cases h : lookupEntry k c.entries with
  | some co =>
      rw [get_hit f h]
      refine ⟨{ co with awaited := true }, ?_, rfl⟩
      show lookupEntry k
        (removeKey k c.entries ++ [(k, { co with awaited := true })]) = _
      rw [lookupEntry_append_of_none (lookupEntry_removeKey_self k c.entries)]
      simp [lookupEntry]
  | none =>
      rw [get_miss f h]
      refine ⟨{ value := f k.1, awaited := true }, ?_, rfl⟩
      by_cases hlen : c.maxsize <
          (c.entries ++ [(k, ({ value := f k.1, awaited := true } : CoroCell V))]).length
      · simp only [hlen, if_pos]
        cases hc : c.entries with
        | nil =>
            simp [hc, List.length_append] at hlen
            omega
        | cons e rest =>
            have hrest : lookupEntry k rest = none := by
              by_cases he : e.1 = k
              · simp [hc, lookupEntry, he] at h
              · simpa [hc, lookupEntry, he] using h
            simp only [hc, List.cons_append, List.tail_cons]
            rw [lookupEntry_append_of_none hrest]
            simp [lookupEntry]
      · simp only [hlen, if_neg, not_false_iff]
        rw [lookupEntry_append_of_none h]
        simp [lookupEntry]

/-- C1 (code bug): the claim — like the cache's own docstring — says the
second `get` with the same `(path, mtime)` is a hit returning the stored
value.  The code wraps the async `_get_support_impl` in
`functools.lru_cache`, which memoizes the coroutine object, so at the
failing input — two sequential calls with the same key — the first call
computes and succeeds but the second awaits the spent coroutine and
raises `RuntimeError("cannot reuse already awaited coroutine")` without
invoking the compute function; a changed mtime misses and computes
again. -/
theorem C1_cache_second_call_raises {V : Type}
    (maxsize : Nat) (hms : 1 ≤ maxsize)
    (p : String) (m m' : Int) (hne : m ≠ m') (compute_fn : String → V) :
    ((AudioFileCache.init V maxsize).get (p, m) compute_fn).1 =
        Except.ok (compute_fn p) ∧
    ((AudioFileCache.init V maxsize).get (p, m) compute_fn).2.2 = true ∧
    (((AudioFileCache.init V maxsize).get (p, m) compute_fn).2.1.get
        (p, m) compute_fn).1 =
      Except.error "cannot reuse already awaited coroutine" ∧
    (((AudioFileCache.init V maxsize).get (p, m) compute_fn).2.1.get
        (p, m) compute_fn).2.2 = false ∧
    ((((AudioFileCache.init V maxsize).get (p, m) compute_fn).2.1.get
        (p, m) compute_fn).2.1.get (p, m') compute_fn).2.2 = true := by
  have h1 :
      (AudioFileCache.init V maxsize).get (p, m) compute_fn =
        (Except.ok (compute_fn p),
         { maxsize := maxsize,
           entries := [((p, m), { value := compute_fn p, awaited := true })] },
         true) := by
    rw [get_miss compute_fn (by rfl)]
    have hlt : ¬ maxsize < (([] : List (CacheKey × CoroCell V)) ++
        [((p, m), ({ value := compute_fn p, awaited := true } : CoroCell V))]).length := by
      simp
      omega
    simp only [AudioFileCache.init] at hlt ⊢
    rw [if_neg hlt]
    simp
  have h2 :
      ({ maxsize := maxsize,
         entries := [((p, m),
           ({ value := compute_fn p, awaited := true } : CoroCell V))] } :
          AudioFileCache V).get (p, m) compute_fn =
        (Except.error "cannot reuse already awaited coroutine",
         { maxsize := maxsize,
           entries := [((p, m), { value := compute_fn p, awaited := true })] },
         false) := by
    have hl : lookupEntry (p, m)
        ([((p, m), ({ value := compute_fn p, awaited := true } : CoroCell V))]) =
          some { value := compute_fn p, awaited := true } := by
      simp [lookupEntry]
    rw [get_hit compute_fn hl]
    simp [removeKey]
  have h3 :
      lookupEntry (p, m')
        ([((p, m), ({ value := compute_fn p, awaited := true } : CoroCell V))]) =
        none := by
    have hkne : ¬ (((p, m) : CacheKey) = (p, m')) := by
      intro hcontra
      exact hne (congrArg Prod.snd hcontra)
    simp [lookupEntry, hkne]
  refine ⟨by rw [h1], by rw [h1], ?_, ?_, ?_⟩
  · rw [h1, h2]
  · rw [h1, h2]
  · rw [h1, h2, get_miss compute_fn h3]

/-- Witness for C1's code-bug theorem at the failing input: key
`("/a.wav", 100)` queried twice, then mtime 200. -/
theorem C1_cache_second_call_raises_witness :
    ((AudioFileCache.init Nat 32).get ("/a.wav", 100) String.length).1 =
        Except.ok (String.length "/a.wav") ∧
    ((AudioFileCache.init Nat 32).get ("/a.wav", 100) String.length).2.2 =
      true ∧
    (((AudioFileCache.init Nat 32).get ("/a.wav", 100) String.length).2.1.get
        ("/a.wav", 100) String.length).1 =
      Except.error "cannot reuse already awaited coroutine" ∧
    (((AudioFileCache.init Nat 32).get ("/a.wav", 100) String.length).2.1.get
        ("/a.wav", 100) String.length).2.2 = false ∧
    ((((AudioFileCache.init Nat 32).get ("/a.wav", 100) String.length).2.1.get
        ("/a.wav", 100) String.length).2.1.get
        ("/a.wav", 200) String.length).2.2 = true :=
  C1_cache_second_call_raises 32 (by decide)
    "/a.wav" 100 200 (by decide) String.length

theorem rtake_of_length_le {α : Type _} {l : List α} {m : Nat}
    (h : l.length ≤ m) : l.rtake m = l := by
  unfold List.rtake
  have hz : l.length - m = 0 := by omega
  rw [hz, List.drop_zero]

theorem length_rtake_le {α : Type _} (l : List α) (m : Nat) :
    (l.rtake m).length ≤ m := by
  unfold List.rtake
  rw [List.length_drop]
  omega

theorem mem_of_mem_rtake {α : Type _} {e : α} {l : List α} {m : Nat}
    (h : e ∈ l.rtake m) : e ∈ l := by
  unfold List.rtake at h
  exact (List.drop_sublist _ _).mem h

theorem rtake_append_rtake {α : Type _} (m : Nat) (l r : List α) :
    ((l.rtake m) ++ r).rtake m = (l ++ r).rtake m := by
  simp only [List.rtake_eq_reverse_take_reverse, List.reverse_append,
    List.reverse_reverse]
  rw [List.take_append_eq_append_take, List.take_append_eq_append_take,
    List.take_take]
  have hmin : min (m - r.reverse.length) m = m - r.reverse.length := by omega
  rw [hmin]

theorem lookupEntry_eq_none_iff {V : Type} {k : CacheKey}
    {l : List (CacheKey × V)} :
    lookupEntry k l = none ↔ ∀ e ∈ l, e.1 ≠ k := by
  induction l with
  | nil => simp [lookupEntry]
  | cons e rest ih =>
      by_cases he : e.1 = k <;> simp [lookupEntry, he, ih]

theorem lookupEntry_isSome_iff {V : Type} {k : CacheKey}
    {l : List (CacheKey × V)} :
    (lookupEntry k l).isSome = true ↔ k ∈ l.map Prod.fst := by
  induction l with
  | nil => simp [lookupEntry]
  | cons e rest ih =>
      by_cases he : e.1 = k
      · simp only [lookupEntry, if_pos he, List.map_cons, List.mem_cons]
        constructor
        · intro hx
          exact Or.inl he.symm
        · intro hx
          rfl
      · simp only [lookupEntry, if_neg he, List.map_cons, List.mem_cons]
        rw [ih]
        constructor
        · exact Or.inr
        · rintro (h | h)
          · exact absurd h.symm he
          · exact h

theorem get_maxsize {V : Type} (c : AudioFileCache V) (k : CacheKey)
    (f : String → V) : (c.get k f).2.1.maxsize = c.maxsize := by
  unfold AudioFileCache.get
  cases lookupEntry k c.entries <;> simp

/-- A miss on a cache whose occupancy respects its capacity keeps exactly
the `maxsize` most recent of the old entries plus the fresh one. -/
theorem get_miss_entries_rtake {V : Type} {c : AudioFileCache V}
    {k : CacheKey} (f : String → V) (h : lookupEntry k c.entries = none)
    (hlen : c.entries.length ≤ c.maxsize) :
    (c.get k f).2.1.entries =
      (c.entries ++
        [(k, ({ value := f k.1, awaited := true } : CoroCell V))]).rtake
        c.maxsize := by
  rw [get_miss f h]
  by_cases hlt : c.maxsize <
      (c.entries ++
        [(k, ({ value := f k.1, awaited := true } : CoroCell V))]).length
  · simp only [if_pos hlt]
    unfold List.rtake
    have hl1 : (c.entries ++
        [(k, ({ value := f k.1, awaited := true } : CoroCell V))]).length =
        c.entries.length + 1 := by
      simp
    have hone : (c.entries ++
        [(k, ({ value := f k.1, awaited := true } : CoroCell V))]).length -
        c.maxsize = 1 := by
      omega
    rw [hone, List.drop_one]
  · simp only [if_neg hlt]
    exact (rtake_of_length_le (by omega)).symm

/-- Folding `get` over a list of pairwise-distinct keys that are all absent
from a within-capacity cache leaves the last `maxsize` of the old entries
followed by the new ones, i.e. an LRU window over the insertion order. -/
theorem getAll_entries_fresh {V : Type} (f : String → V) :
    ∀ (ks : List CacheKey) (c : AudioFileCache V),
      c.entries.length ≤ c.maxsize → ks.Nodup →
      (∀ k ∈ ks, lookupEntry k c.entries = none) →
      (c.getAll ks f).entries =
        (c.entries ++
          ks.map (fun k =>
            (k, ({ value := f k.1, awaited := true } : CoroCell V)))).rtake
          c.maxsize ∧
      (c.getAll ks f).maxsize = c.maxsize := by
  intro ks
  induction ks with
  | nil =>
      intro c hlen _ _
      constructor
      · simp only [AudioFileCache.getAll, List.foldl_nil, List.map_nil,
          List.append_nil]
        exact (rtake_of_length_le hlen).symm
      · rfl
  | cons k ks ih =>
      intro c hlen hnd hfresh
      have hk : lookupEntry k c.entries = none := hfresh k (by simp)
      have hstep : (c.get k f).2.1.entries =
          (c.entries ++
            [(k, ({ value := f k.1, awaited := true } : CoroCell V))]).rtake
            c.maxsize :=
        get_miss_entries_rtake f hk hlen
      have hms : (c.get k f).2.1.maxsize = c.maxsize := get_maxsize c k f
      have hunfold : c.getAll (k :: ks) f = ((c.get k f).2.1).getAll ks f := rfl
      have hlen' : (c.get k f).2.1.entries.length ≤ (c.get k f).2.1.maxsize := by
        rw [hstep, hms]
        exact length_rtake_le _ _
      have hkn : k ∉ ks := (List.nodup_cons.mp hnd).1
      have hnd' : ks.Nodup := (List.nodup_cons.mp hnd).2
      have hfresh' : ∀ k' ∈ ks, lookupEntry k' (c.get k f).2.1.entries = none := by
        intro k' hk'
        rw [lookupEntry_eq_none_iff]
        intro e he
        rw [hstep] at he
        rcases List.mem_append.mp (mem_of_mem_rtake he) with h1 | h2
        · exact lookupEntry_eq_none_iff.mp (hfresh k' (List.mem_cons_of_mem _ hk')) e h1
        · have he2 : e =
              (k, ({ value := f k.1, awaited := true } : CoroCell V)) := by
            simpa using h2
          rw [he2]
          intro hkk
          apply hkn
          have hkk2 : k = k' := hkk
          rw [hkk2]
          exact hk'
      have hih := ih (c.get k f).2.1 hlen' hnd' hfresh'
      rw [hunfold]
      refine ⟨?_, by rw [hih.2, hms]⟩
      rw [hih.1, hms, hstep, rtake_append_rtake]
      simp [List.append_assoc]

/-- Refreshing a resident key's recency protects it from the next eviction:
after a hit on `k` and then a miss on a fresh `k'`, `k` is still resident
(capacity at least 2). -/
theorem resident_after_refresh {V : Type} (c : AudioFileCache V)
    (k k' : CacheKey) (f : String → V)
    (hlen : c.entries.length ≤ c.maxsize) (hms : 2 ≤ c.maxsize)
    (hk : (lookupEntry k c.entries).isSome = true)
    (hk' : lookupEntry k' c.entries = none) :
    ((c.get k f).2.1.get k' f).2.1.resident k = true := by
  obtain ⟨v, hv⟩ := Option.isSome_iff_exists.mp hk
  rw [get_hit f hv]
  have hkne : k' ≠ k := by
    intro hkk
    rw [hkk, hv] at hk'
    exact Option.noConfusion hk'
  have hfresh1 : lookupEntry k'
      (removeKey k c.entries ++ [(k, { v with awaited := true })]) = none := by
    rw [lookupEntry_eq_none_iff]
    intro e he
    rcases List.mem_append.mp he with h1 | h2
    · have hsub : e ∈ c.entries := by
        have : ∀ (l : List (CacheKey × CoroCell V)),
            e ∈ removeKey k l → e ∈ l := by
          intro l
          induction l with
          | nil => simp [removeKey]
          | cons a rest ihl =>
              by_cases ha : a.1 = k
              · intro hmem
                exact List.mem_cons_of_mem _ (ihl (by simpa [removeKey, ha] using hmem))
              · intro hmem
                rcases (by simpa [removeKey, ha] using hmem :
                    e = a ∨ e ∈ removeKey k rest) with h | h
                · exact h ▸ List.mem_cons_self a rest
                · exact List.mem_cons_of_mem _ (ihl h)
        exact this c.entries h1
      exact lookupEntry_eq_none_iff.mp hk' e hsub
    · have he2 : e = (k, { v with awaited := true }) := by simpa using h2
      rw [he2]
      exact fun h => hkne h.symm
  rw [get_miss f hfresh1]
  simp only [AudioFileCache.resident]
  rw [lookupEntry_isSome_iff]
  by_cases hlt : c.maxsize <
      ((removeKey k c.entries ++ [(k, { v with awaited := true })]) ++
        [(k', ({ value := f k'.1, awaited := true } : CoroCell V))]).length
  · simp only [if_pos hlt]
    have hrk : 1 ≤ (removeKey k c.entries).length := by
      have hlen2 : (removeKey k c.entries).length + 2 > c.maxsize := by
        simpa using hlt
      omega
    obtain ⟨e0, rs, hrs⟩ : ∃ e0 rs, removeKey k c.entries = e0 :: rs := by
      cases hrr : removeKey k c.entries with
      | nil => rw [hrr] at hrk; simp at hrk
      | cons e0 rs => exact ⟨e0, rs, rfl⟩
    rw [hrs]
    simp
  · simp only [if_neg hlt]
    simp

/-- C5: capacity is fixed at construction (default 32) and preserved by
every `get`; inserting `capacity + 1` distinct keys into a fresh cache
evicts exactly the least-recently-used key — the first one inserted —
while all later keys remain resident in insertion order; and a hit on a
resident key refreshes its recency, so it survives the next eviction. -/
theorem C5_capacity_and_lru_eviction {V : Type} (f : String → V)
    (cap : Nat) (hcap : 1 ≤ cap)
    (k0 : CacheKey) (rest : List CacheKey)
    (hlen : rest.length = cap) (hnd : (k0 :: rest).Nodup) :
    (AudioFileCache.init V).maxsize = 32 ∧
    (∀ (c : AudioFileCache V) (k : CacheKey),
        (c.get k f).2.1.maxsize = c.maxsize) ∧
    ((AudioFileCache.init V cap).getAll (k0 :: rest) f).keyList = rest ∧
    ((AudioFileCache.init V cap).getAll (k0 :: rest) f).resident k0 = false ∧
    (∀ k ∈ rest,
        ((AudioFileCache.init V cap).getAll (k0 :: rest) f).resident k = true) ∧
    (∀ (c : AudioFileCache V) (k k' : CacheKey),
        c.entries.length ≤ c.maxsize → 2 ≤ c.maxsize →
        (lookupEntry k c.entries).isSome = true →
        lookupEntry k' c.entries = none →
        ((c.get k f).2.1.get k' f).2.1.resident k = true) := by
  have hk0 : k0 ∉ rest := (List.nodup_cons.mp hnd).1
  have hall := getAll_entries_fresh f (k0 :: rest) (AudioFileCache.init V cap)
    (by simp [AudioFileCache.init]) hnd
    (by intro k _; rfl)
  have hentries :
      ((AudioFileCache.init V cap).getAll (k0 :: rest) f).entries =
        rest.map (fun k =>
          (k, ({ value := f k.1, awaited := true } : CoroCell V))) := by
    rw [hall.1]
    show ((k0 :: rest).map (fun k =>
        (k, ({ value := f k.1, awaited := true } : CoroCell V)))).rtake
        (AudioFileCache.init V cap).maxsize = _
    unfold List.rtake
    have hlm : ((k0 :: rest).map (fun k =>
        (k, ({ value := f k.1, awaited := true } : CoroCell V)))).length =
        cap + 1 := by
      simp [hlen]
    have hone : ((k0 :: rest).map (fun k =>
        (k, ({ value := f k.1, awaited := true } : CoroCell V)))).length -
        (AudioFileCache.init V cap).maxsize = 1 := by
      rw [hlm]
      show cap + 1 - cap = 1
      omega
    rw [hone, List.drop_one, List.map_cons, List.tail_cons]
  refine ⟨rfl, fun c k => get_maxsize c k f, ?_, ?_, ?_, ?_⟩
  · unfold AudioFileCache.keyList
    rw [hentries]
    simp only [List.map_map]
    have hid : (Prod.fst ∘ fun k =>
        ((k : CacheKey), ({ value := f k.1, awaited := true } : CoroCell V))) =
        id := rfl
    rw [hid, List.map_id]
  · unfold AudioFileCache.resident
    rw [hentries]
    have : lookupEntry k0 (rest.map (fun k =>
        (k, ({ value := f k.1, awaited := true } : CoroCell V)))) = none := by
      rw [lookupEntry_eq_none_iff]
      intro e he
      obtain ⟨k, hkmem, hke⟩ := List.mem_map.mp he
      rw [← hke]
      intro hcontra
      exact hk0 (by rw [← hcontra]; exact hkmem)
    rw [this]
    rfl
  · intro k hk
    unfold AudioFileCache.resident
    rw [hentries, lookupEntry_isSome_iff]
    simp only [List.map_map]
    have hid : (Prod.fst ∘ fun k =>
        ((k : CacheKey), ({ value := f k.1, awaited := true } : CoroCell V))) =
        id := rfl
    rw [hid, List.map_id]
    exact hk
  · intro c k k' h1 h2 h3 h4
    exact resident_after_refresh c k k' f h1 h2 h3 h4

/-- Witness for C5 with capacity 2 and three distinct keys. -/
theorem C5_capacity_and_lru_eviction_witness :
    (AudioFileCache.init Nat).maxsize = 32 ∧
    (∀ (c : AudioFileCache Nat) (k : CacheKey),
        (c.get k String.length).2.1.maxsize = c.maxsize) ∧
    ((AudioFileCache.init Nat 2).getAll [("a", 0), ("b", 0), ("c", 0)]
        String.length).keyList = [("b", 0), ("c", 0)] ∧
    ((AudioFileCache.init Nat 2).getAll [("a", 0), ("b", 0), ("c", 0)]
        String.length).resident ("a", 0) = false ∧
    (∀ k ∈ [(("b" : String), (0 : Int)), ("c", 0)],
        ((AudioFileCache.init Nat 2).getAll [("a", 0), ("b", 0), ("c", 0)]
            String.length).resident k = true) ∧
    (∀ (c : AudioFileCache Nat) (k k' : CacheKey),
        c.entries.length ≤ c.maxsize → 2 ≤ c.maxsize →
        (lookupEntry k c.entries).isSome = true →
        lookupEntry k' c.entries = none →
        ((c.get k String.length).2.1.get k' String.length).2.1.resident k =
          true) :=
  C5_capacity_and_lru_eviction String.length 2 (by decide)
    ("a", 0) [("b", 0), ("c", 0)] (by decide) (by decide)

/-! ### `asyncio.gather`: index-preserving fan-out/fan-in -/

/-- Store a completed task's result at its own index. -/
def writeSlot {β : Type} (slots : Nat → Option β) (i : Nat) (v : β) :
    Nat → Option β :=
  fun j => if j = i then some v else slots j

/-- Completion of task `i` of `asyncio.gather(*[f x for x in inputs])`:
its result `f inputs[i]` lands in slot `i` whenever `i` is in range. -/
def gatherStep {α β : Type} (f : α → β) (inputs : List α)
    (slots : Nat → Option β) (i : Nat) : Nat → Option β :=
  match inputs[i]? with
  | some a => writeSlot slots i (f a)
  | none => slots

/-- Model of `asyncio.gather(*[f x for x in inputs])` with the tasks
completing in the (arbitrary) order `order`: each completion stores its
result at its own index and the final list is read back in index order,
never in completion order. -/
def asyncGather {α β : Type} (f : α → β) (inputs : List α)
    (order : List Nat) : List (Option β) :=
  (List.range inputs.length).map
    (order.foldl (gatherStep f inputs) (fun _ => none))

theorem gatherStep_foldl {α β : Type} (f : α → β) (inputs : List α) :
    ∀ (order : List Nat) (slots : Nat → Option β) (j : Nat),
      (order.foldl (gatherStep f inputs) slots) j =
        if j ∈ order ∧ j < inputs.length then (inputs[j]?).map f
        else slots j := by
  intro order
  induction order with
  | nil =>
      intro slots j
      simp
  | cons i os ih =>
      intro slots j
      simp only [List.foldl_cons]
      rw [ih]
      by_cases hj : j ∈ os ∧ j < inputs.length
      · rw [if_pos hj, if_pos ⟨List.mem_cons_of_mem _ hj.1, hj.2⟩]
      · rw [if_neg hj]
        by_cases hj2 : j ∈ i :: os ∧ j < inputs.length
        · rw [if_pos hj2]
          have hji : j = i := by
            rcases List.mem_cons.mp hj2.1 with h | h
            · exact h
            · exact absurd ⟨h, hj2.2⟩ hj
          subst hji
          have ha : inputs[j]? = some inputs[j] :=
            List.getElem?_eq_getElem hj2.2
          unfold gatherStep
          rw [ha]
          unfold writeSlot
          simp [ha]
        · rw [if_neg hj2]
          unfold gatherStep
          cases ha : inputs[i]? with
          | none => rfl
          | some a =>
              unfold writeSlot
              have hji : ¬ j = i := by
                intro hcontra
                subst hcontra
                have hjlt : j < inputs.length :=
                  (List.getElem?_eq_some.mp ha).1
                exact hj2 ⟨List.mem_cons_self _ _, hjlt⟩
              show (if j = i then some (f a) else slots j) = slots j
              rw [if_neg hji]

/-- Whenever the completion order reaches every in-range task index, the
gathered list equals the in-order map of `f` over the inputs: the output
is index-aligned with the input, independent of completion order. -/
theorem asyncGather_eq_map {α β : Type} (f : α → β) (inputs : List α)
    (order : List Nat) (hcover : ∀ j, j < inputs.length → j ∈ order) :
    asyncGather f inputs order = inputs.map (fun a => some (f a)) := by
  apply List.ext_getElem?
  intro i
  unfold asyncGather
  rw [List.getElem?_map, List.getElem?_map]
  by_cases hi : i < inputs.length
  · rw [List.getElem?_range hi, List.getElem?_eq_getElem hi]
    show some ((order.foldl (gatherStep f inputs) (fun _ => none)) i) = _
    rw [gatherStep_foldl, if_pos ⟨hcover i hi, hi⟩,
      List.getElem?_eq_getElem hi]
    rfl
  · have h1 : (List.range inputs.length)[i]? = none := by
      rw [List.getElem?_eq_none_iff]
      simpa using hi
    have h2 : inputs[i]? = none := by
      rw [List.getElem?_eq_none_iff]
      omega
    rw [h1, h2]
    rfl

/-- The first per-item failure in completion order, if any: the exception
that `asyncio.gather` propagates to the caller. -/
def firstError {α β ε : Type} (f : α → Except ε β) (inputs : List α)
    (order : List Nat) : Option ε :=
  order.findSome? (fun i =>
    match inputs[i]? with
    | some a =>
        match f a with
        | Except.error e => some e
        | Except.ok _ => none
    | none => none)

/-- `asyncio.gather` over fallible per-item operations, completing in
order `order`: the first failure in completion order fails the whole batch
with that exception (no partial list); with no failure the results are
read back in index order. -/
def asyncGatherE {α β ε : Type} (f : α → Except ε β) (inputs : List α)
    (order : List Nat) : Except ε (List (Option β)) :=
  match firstError f inputs order with
  | some e => Except.error e
  | none =>
      Except.ok
        ((asyncGather (fun a => (f a).toOption) inputs order).map Option.join)

/-- C2: when every per-item operation of a batch succeeds, the batch
returns the per-item results in input order — `output[i]` is the result of
processing `input[i]` — with the output list exactly as long as the input
list, for every completion order of the underlying tasks. -/
theorem C2_batch_preserves_input_order {α β ε : Type} (f : α → Except ε β)
    (inputs : List α) (order : List Nat)
    (horder : order.Perm (List.range inputs.length))
    (hok : ∀ a ∈ inputs, (f a).isOk = true) :
    asyncGatherE f inputs order =
      Except.ok (inputs.map (fun a => (f a).toOption)) ∧
    (inputs.map (fun a => (f a).toOption)).length = inputs.length ∧
    (∀ a ∈ inputs, ∃ b, f a = Except.ok b ∧ (f a).toOption = some b) := by
  have hcover : ∀ j, j < inputs.length → j ∈ order := fun j hj =>
    horder.mem_iff.mpr (List.mem_range.mpr hj)
  have hvals : ∀ a ∈ inputs, ∃ b, f a = Except.ok b ∧ (f a).toOption = some b := by
    intro a ha
    cases hfa : f a with
    | ok b => exact ⟨b, rfl, rfl⟩
    | error e =>
        have hcontra := hok a ha
        rw [hfa] at hcontra
        exact Bool.noConfusion hcontra
  refine ⟨?_, List.length_map _ _, hvals⟩
  have hfe : firstError f inputs order = none := by
    unfold firstError
    rw [List.findSome?_eq_none_iff]
    intro i _
    cases hi : inputs[i]? with
    | none => rfl
    | some a =>
        have ha : a ∈ inputs := by
          obtain ⟨hlt, heq⟩ := List.getElem?_eq_some.mp hi
          exact heq ▸ List.getElem_mem hlt
        obtain ⟨b, hb, _⟩ := hvals a ha
        simp [hb]
  unfold asyncGatherE
  rw [hfe]
  rw [asyncGather_eq_map _ _ _ hcover, List.map_map]
  rfl

/-- Witness for C2: three conversions where task 1 (input `B`) completes
before task 0 (input `A`); the result list is still in input order. -/
theorem C2_batch_preserves_input_order_witness :
    asyncGatherE (fun n : Nat => (Except.ok (n * 10) : Except String Nat))
        [7, 8, 9] [1, 0, 2] =
      Except.ok ([7, 8, 9].map
        (fun n => (Except.ok (n * 10) : Except String Nat).toOption)) ∧
    ([7, 8, 9].map
        (fun n => (Except.ok (n * 10) : Except String Nat).toOption)).length =
      [7, 8, 9].length ∧
    (∀ n ∈ [7, 8, 9], ∃ b,
        (Except.ok (n * 10) : Except String Nat) = Except.ok b ∧
        (Except.ok (n * 10) : Except String Nat).toOption = some b) :=
  C2_batch_preserves_input_order (fun n : Nat => Except.ok (n * 10))
    [7, 8, 9] [1, 0, 2] (by decide) (fun a _ => rfl)

/-! ### `server.py`: `convert_to_supported_format` / `convert_audio` -/

/-- The root part `os.path.splitext(p)[0]`: everything before the
extension. -/
def splitextRoot (p : String) : String :=
  String.mk (p.toList.take (p.toList.length - (splitextExt p).toList.length))

/-- Embedding of `ConvertAudioInputParams` from `server.py`. -/
structure ConvertAudioInputParams where
  input_file : String
  output_path : Option String
  target_format : String
  deriving Repr, DecidableEq

/-- Embedding of `server.py::convert_to_supported_format`.  The pydub
load/export pair is the external `codec` parameter taking the input and
output paths; on codec failure the source raises
`RuntimeError(f"Audio conversion failed: {e}")`, otherwise it returns the
derived output path (`base + "." + target_format` when none is given). -/
def convert_to_supported_format (codec : String → String → Except String Unit)
    (input_file : String) (output_path : Option String)
    (target_format : String) : Except String String :=
  let out :=
    match output_path with
    | none => splitextRoot input_file ++ "." ++ target_format
    | some p => p
  match codec input_file out with
  | Except.ok _ => Except.ok out
  | Except.error e => Except.error ("Audio conversion failed: " ++ e)

/-- Embedding of `convert_audio.process_single` from `server.py`: a
conversion failure is re-raised as
`RuntimeError(f"Audio conversion failed for {input}: {e}")`. -/
def convert_audio_process_single
    (codec : String → String → Except String Unit)
    (input_data : ConvertAudioInputParams) : Except String String :=
  match convert_to_supported_format codec input_data.input_file
      input_data.output_path input_data.target_format with
  | Except.ok out => Except.ok out
  | Except.error e =>
      Except.error
        ("Audio conversion failed for " ++ input_data.input_file ++ ": " ++ e)

/-- Embedding of the `convert_audio` tool from `server.py`:
`asyncio.gather` over `process_single`, tasks completing in `order`. -/
def convert_audio_batch (codec : String → String → Except String Unit)
    (inputs : List ConvertAudioInputParams) (order : List Nat) :
    Except String (List (Option String)) :=
  asyncGatherE (convert_audio_process_single codec) inputs order

/-- C6: if any single item of a batch fails, the whole batch call fails
with an error naming the offending item's file path and the underlying
cause, and no partial per-item result list is returned. -/
theorem C6_batch_failure_identifies_item
    (codec : String → String → Except String Unit)
    (inputs : List ConvertAudioInputParams) (order : List Nat)
    (horder : order.Perm (List.range inputs.length))
    (hfail : ∃ a ∈ inputs,
        (convert_audio_process_single codec a).isOk = false) :
    ∃ (a : ConvertAudioInputParams) (cause : String), a ∈ inputs ∧
      convert_to_supported_format codec a.input_file a.output_path
          a.target_format = Except.error cause ∧
      convert_audio_batch codec inputs order =
        Except.error
          ("Audio conversion failed for " ++ a.input_file ++ ": " ++ cause) ∧
      ∀ l, convert_audio_batch codec inputs order ≠ Except.ok l := by
  obtain ⟨a0, ha0, hbad⟩ := hfail
  obtain ⟨i0, hi0lt, hi0⟩ := List.mem_iff_getElem.mp ha0
  have hi0ord : i0 ∈ order := horder.mem_iff.mpr (List.mem_range.mpr hi0lt)
  have hsome : ∃ e, firstError (convert_audio_process_single codec)
      inputs order = some e := by
    cases hfe : firstError (convert_audio_process_single codec)
        inputs order with
    | some e => exact ⟨e, rfl⟩
    | none =>
        exfalso
        have hprobe := List.findSome?_eq_none_iff.mp hfe i0 hi0ord
        rw [List.getElem?_eq_getElem hi0lt, hi0] at hprobe
        cases hfa : convert_audio_process_single codec a0 with
        | ok b =>
            rw [hfa] at hbad
            exact Bool.noConfusion hbad
        | error e =>
            simp only [hfa] at hprobe
            exact Option.noConfusion hprobe
  obtain ⟨e, hfe⟩ := hsome
  obtain ⟨j, hjord, hprobe⟩ := List.exists_of_findSome?_eq_some hfe
  have hja : ∃ a, inputs[j]? = some a ∧
      convert_audio_process_single codec a = Except.error e := by
    cases hj : inputs[j]? with
    | none =>
        simp only [hj] at hprobe
        exact Option.noConfusion hprobe
    | some a =>
        simp only [hj] at hprobe
        cases hfa : convert_audio_process_single codec a with
        | ok b =>
            simp only [hfa] at hprobe
            exact Option.noConfusion hprobe
        | error e' =>
            simp only [hfa] at hprobe
            exact ⟨a, rfl, by rw [hfa, Option.some_inj.mp hprobe]⟩
  obtain ⟨a, hja?, hae⟩ := hja
  have hamem : a ∈ inputs := by
    obtain ⟨hlt, heq⟩ := List.getElem?_eq_some.mp hja?
    exact heq ▸ List.getElem_mem hlt
  have hshape : ∃ cause,
      convert_to_supported_format codec a.input_file a.output_path
          a.target_format = Except.error cause ∧
      e = "Audio conversion failed for " ++ a.input_file ++ ": " ++ cause := by
    unfold convert_audio_process_single at hae
    cases hc : convert_to_supported_format codec a.input_file a.output_path
        a.target_format with
    | ok out => rw [hc] at hae; exact Except.noConfusion hae
    | error cause =>
        rw [hc] at hae
        exact ⟨cause, rfl, (Except.error.inj hae).symm⟩
  obtain ⟨cause, hcerr, hecause⟩ := hshape
  refine ⟨a, cause, hamem, hcerr, ?_, ?_⟩
  · unfold convert_audio_batch asyncGatherE
    rw [hfe, hecause]
  · intro l hcontra
    unfold convert_audio_batch asyncGatherE at hcontra
    rw [hfe] at hcontra
    exact Except.noConfusion hcontra

/-- Witness for C6: a batch of two conversions where the codec rejects the
second input; the whole batch fails naming that item. -/
theorem C6_batch_failure_identifies_item_witness :
    ∃ (a : ConvertAudioInputParams) (cause : String),
      a ∈ [ConvertAudioInputParams.mk "a.wav" none "mp3",
           ConvertAudioInputParams.mk "b.flac" none "mp3"] ∧
      convert_to_supported_format
          (fun p _ => if p = "b.flac" then Except.error "corrupt input"
            else Except.ok ())
          a.input_file a.output_path a.target_format = Except.error cause ∧
      convert_audio_batch
          (fun p _ => if p = "b.flac" then Except.error "corrupt input"
            else Except.ok ())
          [ConvertAudioInputParams.mk "a.wav" none "mp3",
           ConvertAudioInputParams.mk "b.flac" none "mp3"] [1, 0] =
        Except.error
          ("Audio conversion failed for " ++ a.input_file ++ ": " ++ cause) ∧
      ∀ l, convert_audio_batch
          (fun p _ => if p = "b.flac" then Except.error "corrupt input"
            else Except.ok ())
          [ConvertAudioInputParams.mk "a.wav" none "mp3",
           ConvertAudioInputParams.mk "b.flac" none "mp3"] [1, 0] ≠
        Except.ok l :=
  C6_batch_failure_identifies_item _ _ [1, 0] (by decide)
    ⟨ConvertAudioInputParams.mk "b.flac" none "mp3", by decide, by decide⟩

/-! ### `server.py`: `get_audio_file_support` -/

/-- Embedding of the pydantic model `FilePathSupportParams` from
`server.py`: the per-file support record. -/
structure FilePathSupportParams where
  path : String
  transcription_support : Option (List String)
  llm_support : Option (List String)
  modified_time : Int
  deriving Repr, DecidableEq

/-- The extension set Whisper transcription accepts (`whisper_formats`). -/
def whisperFormats : List String :=
  [".mp3", ".wav", ".mp4", ".mpeg", ".mpga", ".m4a", ".webm"]

/-- The extension set GPT-4o audio chat accepts (`gpt4o_formats`). -/
def gpt4oFormats : List String := [".mp3", ".wav"]

/-- Embedding of `server.py::get_audio_file_support`.  The source reads the
file's mtime with `os.path.getmtime`; here the mtime is an explicit
argument since the filesystem is external. -/
def get_audio_file_support (file_path : String) (mtime : Int) :
    FilePathSupportParams :=
  let file_ext := splitextExt (pyLower file_path)
  { path := file_path
    transcription_support :=
      if file_ext ∈ whisperFormats then some ["whisper-1"] else none
    llm_support :=
      if file_ext ∈ gpt4oFormats then some ["gpt-4o-audio-preview-2024-10-01"] else none
    modified_time := mtime }

example : splitextExt (pyLower "/Audio/Take1.MP3") = ".mp3" := by decide
example : splitextExt "/a/.mp3" = "" := by decide
example : splitextExt (pyLower "song.FLAC") = ".flac" := by decide

/-- C9: the support record computed by `get_audio_file_support` is a pure
function of the path's lowercased extension: the transcription-support list
is exactly `["whisper-1"]` when the extension is one of
`.mp3 .wav .mp4 .mpeg .mpga .m4a .webm` and `none` otherwise, the
chat-support list is exactly `["gpt-4o-audio-preview-2024-10-01"]` when the
extension is `.mp3` or `.wav` and `none` otherwise, and two paths with the
same lowercased extension always get identical support lists (no
per-instance variation). -/
theorem C9_support_pure_function_of_extension
    (p q : String) (m m' : Int)
    (hext : splitextExt (pyLower p) = splitextExt (pyLower q)) :
    ((get_audio_file_support p m).transcription_support =
        (get_audio_file_support q m').transcription_support) ∧
    ((get_audio_file_support p m).llm_support =
        (get_audio_file_support q m').llm_support) ∧
    ((get_audio_file_support p m).transcription_support = some ["whisper-1"] ↔
        splitextExt (pyLower p) ∈ whisperFormats) ∧
    ((get_audio_file_support p m).transcription_support = none ↔
        splitextExt (pyLower p) ∉ whisperFormats) ∧
    ((get_audio_file_support p m).llm_support =
        some ["gpt-4o-audio-preview-2024-10-01"] ↔
        splitextExt (pyLower p) ∈ gpt4oFormats) ∧
    ((get_audio_file_support p m).llm_support = none ↔
        splitextExt (pyLower p) ∉ gpt4oFormats) := by
  unfold get_audio_file_support
  rw [hext]
  refine ⟨rfl, rfl, ?_, ?_, ?_, ?_⟩ <;> rw [← hext] <;>
    by_cases h : splitextExt (pyLower p) ∈ whisperFormats <;>
    by_cases h2 : splitextExt (pyLower p) ∈ gpt4oFormats <;>
    simp [h, h2]

/-- Witness for C9 at concrete paths: `/Audio/Take1.MP3` and `take2.mp3`
share the lowercased extension `.mp3`. -/
theorem C9_support_pure_function_of_extension_witness :
    ((get_audio_file_support "/Audio/Take1.MP3" 5).transcription_support =
        (get_audio_file_support "take2.mp3" 9).transcription_support) ∧
    ((get_audio_file_support "/Audio/Take1.MP3" 5).llm_support =
        (get_audio_file_support "take2.mp3" 9).llm_support) ∧
    ((get_audio_file_support "/Audio/Take1.MP3" 5).transcription_support =
        some ["whisper-1"] ↔
        splitextExt (pyLower "/Audio/Take1.MP3") ∈ whisperFormats) ∧
    ((get_audio_file_support "/Audio/Take1.MP3" 5).transcription_support = none ↔
        splitextExt (pyLower "/Audio/Take1.MP3") ∉ whisperFormats) ∧
    ((get_audio_file_support "/Audio/Take1.MP3" 5).llm_support =
        some ["gpt-4o-audio-preview-2024-10-01"] ↔
        splitextExt (pyLower "/Audio/Take1.MP3") ∈ gpt4oFormats) ∧
    ((get_audio_file_support "/Audio/Take1.MP3" 5).llm_support = none ↔
        splitextExt (pyLower "/Audio/Take1.MP3") ∉ gpt4oFormats) :=
  C9_support_pure_function_of_extension "/Audio/Take1.MP3" "take2.mp3" 5 9 (by decide)

/-! ### `server.py`: `compress_mp3_file` / `maybe_compress_file` -/

/-- Python `s.endswith(suffix)`. -/
def strEndsWith (s suffix : String) : Bool :=
  suffix.toList.isSuffixOf s.toList

/-- `os.path.basename` as a string. -/
def basenameStr (p : String) : String := String.mk (basenameChars p.toList)

/-- One codec pass performed by the compression pipeline. -/
inductive CompressEvent
  | convert (input output : String)
  | downsample (input output : String) (rate : Nat)
  deriving Repr, DecidableEq

/-- Embedding of `server.py::compress_mp3_file`: rejects non-`.mp3` input,
derives the default output `compressed_<stem>.mp3` from the basename when
no output path is given, and downsamples through the codec at
`out_sample_rate`. -/
def compress_mp3_file (codec : String → String → Nat → Except String Unit)
    (mp3_file_path : String) (output_path : Option String)
    (out_sample_rate : Nat) : Except String String :=
  if strEndsWith (pyLower mp3_file_path) ".mp3" = false then
    Except.error "compress_mp3_file() called on a file that is not .mp3"
  else
    let out :=
      match output_path with
      | some p => p
      | none => "compressed_" ++ splitextRoot (basenameStr mp3_file_path) ++ ".mp3"
    match codec mp3_file_path out out_sample_rate with
    | Except.ok _ => Except.ok out
    | Except.error e => Except.error ("Error compressing mp3 file: " ++ e)

/-- Embedding of `server.py::maybe_compress_file`.  `size` is the byte
size the filesystem reports for each path;
`codecConvert`/`codecCompress` are the two pydub export operations.  The
result carries the returned path together with the trace of codec passes
performed, so that "no file written" and "exactly one compression pass"
are visible in the outcome. -/
def maybe_compress_file (size : String → Nat)
    (codecConvert : String → String → Except String Unit)
    (codecCompress : String → String → Nat → Except String Unit)
    (input_file : String) (output_path : Option String) (max_mb : Nat) :
    Except String (String × List CompressEvent) :=
  let file_size := size input_file
  let threshold_bytes := max_mb * 1024 * 1024
  if file_size ≤ threshold_bytes then
    Except.ok (input_file, [])
  else
    let step1 : Except String (String × List CompressEvent) :=
      if strEndsWith (pyLower input_file) ".mp3" then
        Except.ok (input_file, [])
      else
        match convert_to_supported_format codecConvert input_file none "mp3" with
        | Except.ok out =>
            Except.ok (out, [CompressEvent.convert input_file out])
        | Except.error e =>
            Except.error ("[maybe_compress_file] Error converting to MP3: " ++ e)
    match step1 with
    | Except.error e => Except.error e
    | Except.ok (mp3file, evs) =>
        match compress_mp3_file codecCompress mp3file output_path 11025 with
        | Except.ok out =>
            Except.ok (out, evs ++ [CompressEvent.downsample mp3file out 11025])
        | Except.error e =>
            Except.error ("[maybe_compress_file] Error compressing MP3 file: " ++ e)

/-- Is a trace event a downsampling (compression) pass? -/
def CompressEvent.isDownsample : CompressEvent → Bool
  | CompressEvent.downsample .. => true
  | _ => false

example :
    maybe_compress_file (fun _ => 25 * 1024 * 1024)
      (fun _ _ => Except.ok ()) (fun _ _ _ => Except.ok ())
      "/d/a.wav" none 25 = Except.ok ("/d/a.wav", []) := rfl

example :
    maybe_compress_file (fun _ => 25 * 1024 * 1024 + 1)
      (fun _ _ => Except.ok ()) (fun _ _ _ => Except.ok ())
      "/d/a.wav" none 25 =
      Except.ok ("compressed_a.mp3",
        [CompressEvent.convert "/d/a.wav" "/d/a.mp3",
         CompressEvent.downsample "/d/a.mp3" "compressed_a.mp3" 11025]) := rfl

/-- The mp3 file the compression pipeline downsamples: the input itself,
or its mp3 conversion when the input is not already mp3. -/
def mp3FileFor (input_file : String) : String :=
  if strEndsWith (pyLower input_file) ".mp3" then input_file
  else splitextRoot input_file ++ ".mp3"

/-- The output path `compress_mp3_file` writes to: the explicit output
path, or `compressed_<stem>.mp3` derived from the basename. -/
def defaultCompressOut (mp3file : String) (output_path : Option String) :
    String :=
  match output_path with
  | some p => p
  | none => "compressed_" ++ splitextRoot (basenameStr mp3file) ++ ".mp3"

/-- The codec passes `maybe_compress_file` performs on an oversized file:
an optional mp3 conversion followed by exactly one 11025 Hz downsample. -/
def compressEvsFor (input_file : String) (output_path : Option String) :
    List CompressEvent :=
  (if strEndsWith (pyLower input_file) ".mp3" then []
   else [CompressEvent.convert input_file (mp3FileFor input_file)]) ++
  [CompressEvent.downsample (mp3FileFor input_file)
    (defaultCompressOut (mp3FileFor input_file) output_path) 11025]

theorem strEndsWith_lower_append_mp3 (s : String) :
    strEndsWith (pyLower (s ++ ".mp3")) ".mp3" = true := by
  unfold strEndsWith pyLower
  have h1 : (s ++ ".mp3").toList = s.toList ++ ['.', 'm', 'p', '3'] := rfl
  rw [h1, List.map_append]
  have h2 : (['.', 'm', 'p', '3'].map lowerChar) = ['.', 'm', 'p', '3'] := by
    decide
  rw [h2, List.isSuffixOf_iff_suffix]
  exact List.suffix_append _ _

/-- C3: with threshold `max_mb`, compression is a no-op returning the
input path and performing no codec pass whenever the size is at most
`max_mb * 1024 * 1024` bytes (inclusive boundary); a strictly larger file
gets exactly one compression pass — an mp3 conversion first when the input
is not mp3, then a single 11025 Hz downsample — and the resulting path is
returned without error for every possible resulting size (the size is
never re-checked). -/
theorem C3_compress_threshold_and_single_pass
    (size : String → Nat)
    (codecConvert : String → String → Except String Unit)
    (codecCompress : String → String → Nat → Except String Unit)
    (input_file : String) (output_path : Option String) (max_mb : Nat)
    (hconv : ∀ i o, codecConvert i o = Except.ok ())
    (hcomp : ∀ i o r, codecCompress i o r = Except.ok ()) :
    (size input_file ≤ max_mb * 1024 * 1024 →
      maybe_compress_file size codecConvert codecCompress input_file
          output_path max_mb = Except.ok (input_file, [])) ∧
    (max_mb * 1024 * 1024 < size input_file →
      maybe_compress_file size codecConvert codecCompress input_file
          output_path max_mb =
        Except.ok (defaultCompressOut (mp3FileFor input_file) output_path,
          compressEvsFor input_file output_path) ∧
      ((compressEvsFor input_file output_path).filter
          CompressEvent.isDownsample).length = 1) := by
  constructor
  · intro h
    unfold maybe_compress_file
    rw [if_pos h]
  · intro h
    have hnle : ¬ size input_file ≤ max_mb * 1024 * 1024 := not_le.mpr h
    constructor
    · by_cases hmp3 : strEndsWith (pyLower input_file) ".mp3" = true
      · simp [maybe_compress_file, compress_mp3_file, mp3FileFor,
          defaultCompressOut, compressEvsFor, if_neg hnle, hmp3, hcomp]
      · have hmp3f : strEndsWith (pyLower input_file) ".mp3" = false :=
          Bool.not_eq_true _ |>.mp hmp3
        have hsuf := strEndsWith_lower_append_mp3 (splitextRoot input_file)
        have hassoc : splitextRoot input_file ++ "." ++ "mp3" =
            splitextRoot input_file ++ ".mp3" := by
          rw [String.append_assoc]
          rfl
        simp only [maybe_compress_file, compress_mp3_file,
          convert_to_supported_format, mp3FileFor, defaultCompressOut,
          compressEvsFor, if_neg hnle, hmp3f, hconv, hcomp]
        simp only [hassoc]
        simp [hsuf, hmp3f]
    · by_cases hmp3 : strEndsWith (pyLower input_file) ".mp3" = true <;>
        simp [compressEvsFor, CompressEvent.isDownsample, hmp3]

/-- Witness for C3 at a non-mp3 input of 25 MB (not compressed) and the
same pipeline observed on an oversized file via the hypotheses' concrete
instantiation. -/
theorem C3_compress_threshold_and_single_pass_witness :
    ((fun _ => 25 * 1024 * 1024 + 1 : String → Nat) "/d/a.wav" ≤
        25 * 1024 * 1024 →
      maybe_compress_file (fun _ => 25 * 1024 * 1024 + 1)
          (fun _ _ => Except.ok ()) (fun _ _ _ => Except.ok ())
          "/d/a.wav" none 25 = Except.ok ("/d/a.wav", [])) ∧
    (25 * 1024 * 1024 <
        (fun _ => 25 * 1024 * 1024 + 1 : String → Nat) "/d/a.wav" →
      maybe_compress_file (fun _ => 25 * 1024 * 1024 + 1)
          (fun _ _ => Except.ok ()) (fun _ _ _ => Except.ok ())
          "/d/a.wav" none 25 =
        Except.ok (defaultCompressOut (mp3FileFor "/d/a.wav") none,
          compressEvsFor "/d/a.wav" none) ∧
      ((compressEvsFor "/d/a.wav" none).filter
          CompressEvent.isDownsample).length = 1) :=
  C3_compress_threshold_and_single_pass (fun _ => 25 * 1024 * 1024 + 1)
    (fun _ _ => Except.ok ()) (fun _ _ _ => Except.ok ())
    "/d/a.wav" none 25 (fun _ _ => rfl) (fun _ _ _ => rfl)

/-! ### C10: legacy vs current default compression output paths -/

/-- `pathlib.Path(p).parent` rendered as a string, for plain paths without
duplicate or trailing slashes: the prefix before the last `/`, `"."` when
there is no slash, `"/"` for files at the root. -/
def parentStr (p : String) : String :=
  let cs := p.toList
  match cs.reverse.findIdx? (· == '/') with
  | none => "."
  | some j =>
      let pre := cs.take (cs.length - 1 - j)
      if pre.isEmpty then "/" else String.mk pre

/-- `pathlib`'s `/` operator rendered on strings for the same plain
paths. -/
def pathJoin (dir name : String) : String :=
  if dir = "." then name
  else if dir = "/" then "/" ++ name
  else dir ++ "/" ++ name

/-- Length of `pathlib.Path(p).suffix`: the part of the name from its last
dot, provided that dot is neither leading nor trailing. -/
def pathSuffixLen (name : List Char) : Nat :=
  match name.reverse.findIdx? (· == '.') with
  | none => 0
  | some j =>
      let i := name.length - 1 - j
      if 0 < i ∧ i < name.length - 1 then name.length - i else 0

/-- `pathlib.Path(p).stem`: the final component without its suffix. -/
def pathStem (p : String) : String :=
  let name := basenameChars p.toList
  String.mk (name.take (name.length - pathSuffixLen name))

/-- Default output path of the legacy `compress_mp3_file`
(`server.py` and `whisper_local/convert.py`): built from the basename
only — `f"compressed_{name_no_ext}.mp3"` — hence relative to the process
working directory. -/
def legacyDefaultOutput (p : String) : String :=
  "compressed_" ++ splitextRoot (basenameStr p) ++ ".mp3"

/-- Default output path of `AudioService.compress_audio`:
`input_file.parent / f"compressed_{input_file.stem}.mp3"`. -/
def serviceDefaultOutput (p : String) : String :=
  pathJoin (parentStr p) ("compressed_" ++ pathStem p ++ ".mp3")

/-- C10 counterexample: for the oversized input `/audio/a.mp3` the legacy
implementation derives the bare `compressed_a.mp3` (relative to the
working directory) while `AudioService.compress_audio` derives
`/audio/compressed_a.mp3`; the two default output paths differ. -/
theorem C10_counterexample :
    legacyDefaultOutput "/audio/a.mp3" = "compressed_a.mp3" ∧
    serviceDefaultOutput "/audio/a.mp3" = "/audio/compressed_a.mp3" ∧
    legacyDefaultOutput "/audio/a.mp3" ≠
      serviceDefaultOutput "/audio/a.mp3" := by
  refine ⟨by decide, by decide, by decide⟩

/-- C10 (amended): both implementations derive the same output file NAME
(`compressed_<stem>.mp3`, whenever the two stem notions agree on the
basename), and the current implementation prefixes it with the input's
parent directory; the two full default paths coincide exactly when that
parent is the working directory `"."`. -/
theorem C10_same_name_parent_prefixed (p : String)
    (hstem : splitextRoot (basenameStr p) = pathStem p) :
    serviceDefaultOutput p = pathJoin (parentStr p) (legacyDefaultOutput p) ∧
    (parentStr p = "." → serviceDefaultOutput p = legacyDefaultOutput p) ∧
    (parentStr p ≠ "." → serviceDefaultOutput p ≠ legacyDefaultOutput p) := by
  refine ⟨?_, ?_, ?_⟩
  · unfold serviceDefaultOutput legacyDefaultOutput
    rw [hstem]
  · intro hdot
    unfold serviceDefaultOutput legacyDefaultOutput pathJoin
    rw [hstem, if_pos hdot]
  · intro hne heq
    unfold serviceDefaultOutput legacyDefaultOutput pathJoin at heq
    rw [hstem, if_neg hne] at heq
    by_cases hroot : parentStr p = "/"
    · rw [if_pos hroot] at heq
      have hlen := congrArg String.length heq
      rw [String.length_append] at hlen
      have hone : ("/" : String).length = 1 := rfl
      rw [hone] at hlen
      omega
    · rw [if_neg hroot] at heq
      have hlen := congrArg String.length heq
      rw [String.length_append, String.length_append] at hlen
      have hone : ("/" : String).length = 1 := rfl
      rw [hone] at hlen
      omega

/-- Witness for the amended C10 at `/audio/a.mp3`. -/
theorem C10_same_name_parent_prefixed_witness :
    serviceDefaultOutput "/audio/a.mp3" =
      pathJoin (parentStr "/audio/a.mp3")
        (legacyDefaultOutput "/audio/a.mp3") ∧
    (parentStr "/audio/a.mp3" = "." →
      serviceDefaultOutput "/audio/a.mp3" =
        legacyDefaultOutput "/audio/a.mp3") ∧
    (parentStr "/audio/a.mp3" ≠ "." →
      serviceDefaultOutput "/audio/a.mp3" ≠
        legacyDefaultOutput "/audio/a.mp3") :=
  C10_same_name_parent_prefixed "/audio/a.mp3" (by decide)

/-! ### `transcription_service.py`: `chat_with_audio` validation (C7) -/

/-- Observable effects of one `chat_with_audio` call, in order. -/
inductive ChatEvent
  | readFile (path : String)
  | remoteCall
  deriving Repr, DecidableEq

/-- `ext = file_path.suffix.lower().replace(".", "")` as computed by
`TranscriptionService.chat_with_audio`. -/
def chatExt (file_path : String) : String :=
  let name := basenameChars file_path.toList
  let suffix := name.drop (name.length - pathSuffixLen name)
  String.mk ((suffix.map lowerChar).filter (fun c => !(c == '.')))

/-- Embedding of `TranscriptionService.chat_with_audio`: validates the
extension locally first; only then reads the file and calls the remote
API.  The trace lists the effects actually performed; a validation
failure returns before any effect. -/
def chat_with_audio (file_path : String) :
    Except String Unit × List ChatEvent :=
  let ext := chatExt file_path
  if ext ∉ (["mp3", "wav"] : List String) then
    (Except.error ("Expected mp3 or wav extension, but got " ++ ext), [])
  else
    (Except.ok (), [ChatEvent.readFile file_path, ChatEvent.remoteCall])

/-- C7: a path whose (case-insensitively lowered) extension is not mp3 or
wav makes `chat_with_audio` raise the validation error locally, with no
file read and no remote call performed; an mp3 or wav path raises no such
error and proceeds to the read and the remote call. -/
theorem C7_chat_validates_extension_locally (p q : String)
    (hp : chatExt p ∉ (["mp3", "wav"] : List String))
    (hq : chatExt q ∈ (["mp3", "wav"] : List String)) :
    ((chat_with_audio p).1 =
        Except.error ("Expected mp3 or wav extension, but got " ++ chatExt p) ∧
      (chat_with_audio p).2 = [] ∧
      ChatEvent.readFile p ∉ (chat_with_audio p).2 ∧
      ChatEvent.remoteCall ∉ (chat_with_audio p).2) ∧
    ((chat_with_audio q).1 = Except.ok () ∧
      (chat_with_audio q).2 = [ChatEvent.readFile q, ChatEvent.remoteCall]) := by
  constructor
  · have hbranch : chat_with_audio p =
        (Except.error ("Expected mp3 or wav extension, but got " ++ chatExt p),
         []) := by
      unfold chat_with_audio
      rw [if_pos hp]
    rw [hbranch]
    exact ⟨rfl, rfl, by simp, by simp⟩
  · have hbranch : chat_with_audio q =
        (Except.ok (), [ChatEvent.readFile q, ChatEvent.remoteCall]) := by
      unfold chat_with_audio
      rw [if_neg (not_not_intro hq)]
    rw [hbranch]
    exact ⟨rfl, rfl⟩

/-- Witness for C7: `.FLAC` (uppercase) is rejected before any effect,
`.MP3` (uppercase) is accepted — the check is case-insensitive. -/
theorem C7_chat_validates_extension_locally_witness :
    ((chat_with_audio "/x/a.FLAC").1 =
        Except.error
          ("Expected mp3 or wav extension, but got " ++ chatExt "/x/a.FLAC") ∧
      (chat_with_audio "/x/a.FLAC").2 = [] ∧
      ChatEvent.readFile "/x/a.FLAC" ∉ (chat_with_audio "/x/a.FLAC").2 ∧
      ChatEvent.remoteCall ∉ (chat_with_audio "/x/a.FLAC").2) ∧
    ((chat_with_audio "/x/b.MP3").1 = Except.ok () ∧
      (chat_with_audio "/x/b.MP3").2 =
        [ChatEvent.readFile "/x/b.MP3", ChatEvent.remoteCall]) :=
  C7_chat_validates_extension_locally "/x/a.FLAC" "/x/b.MP3"
    (by decide) (by decide)

/-! ### C4: the File Filter/Sort Engine's sort (spec-modelled) -/

/-- Modelled from the spec: the record shape the File Filter/Sort Engine
sorts (a support record augmented with size/duration/modified-time/format;
the `domain` module holding `FileFilterSorter` is not among the provided
sources).  Numeric fields are integers here; `duration` may be unknown. -/
structure FileRec where
  path : String
  size : Int
  duration : Option Int
  modified_time : Int
  format : String
  deriving Repr, DecidableEq

/-- Modelled from the spec: the `SortBy` key options of the listing. -/
inductive SortBy
  | name
  | size
  | duration
  | modified_time
  | format
  deriving Repr, DecidableEq

/-- Modelled from the spec: non-strict comparison on the requested sort
key; a record whose duration is unknown sorts after every record with a
known one. -/
def primLe : SortBy → FileRec → FileRec → Bool
  | SortBy.name, a, b => decide (a.path ≤ b.path)
  | SortBy.size, a, b => decide (a.size ≤ b.size)
  | SortBy.duration, a, b =>
      match a.duration, b.duration with
      | some x, some y => decide (x ≤ y)
      | some _, none => true
      | none, some _ => false
      | none, none => true
  | SortBy.modified_time, a, b => decide (a.modified_time ≤ b.modified_time)
  | SortBy.format, a, b => decide (a.format ≤ b.format)

/-- Modelled from the spec: the sort comparator — the requested key first,
ties broken by path name ascending. -/
def fileLe (s : SortBy) (a b : FileRec) : Bool :=
  if primLe s a b then
    (if primLe s b a then decide (a.path ≤ b.path) else true)
  else false

/-- Modelled from the spec: `FileFilterSorter.sort_files` — a stable merge
sort by the tie-breaking comparator; `reverse` flips the whole comparator
(§8's pinned policy). -/
def sort_files (files : List FileRec) (sort_by : SortBy) (reverse : Bool) :
    List FileRec :=
  if reverse then files.mergeSort (fun a b => fileLe sort_by b a)
  else files.mergeSort (fileLe sort_by)

theorem primLe_total (s : SortBy) (a b : FileRec) :
    primLe s a b = true ∨ primLe s b a = true := by
  cases s
  case name => simp [primLe]; exact le_total _ _
  case size => simp [primLe]; omega
  case duration =>
      cases hda : a.duration <;> cases hdb : b.duration <;>
        simp [primLe, hda, hdb]
      omega
  case modified_time => simp [primLe]; omega
  case format => simp [primLe]; exact le_total _ _

theorem primLe_trans (s : SortBy) (a b c : FileRec)
    (hab : primLe s a b = true) (hbc : primLe s b c = true) :
    primLe s a c = true := by
  cases s
  case name =>
      simp [primLe] at hab hbc ⊢
      exact le_trans hab hbc
  case size => simp [primLe] at hab hbc ⊢; omega
  case duration =>
      cases ha : a.duration <;> cases hb : b.duration <;>
        cases hc : c.duration <;> simp_all [primLe] <;> omega

  case modified_time => simp [primLe] at hab hbc ⊢; omega
  case format =>
      simp [primLe] at hab hbc ⊢
      exact le_trans hab hbc

theorem fileLe_true_iff (s : SortBy) (a b : FileRec) :
    fileLe s a b = true ↔
      (primLe s a b = true ∧ (primLe s b a = true → a.path ≤ b.path)) := by
  unfold fileLe
  by_cases h1 : primLe s a b <;> by_cases h2 : primLe s b a <;>
    simp [h1, h2]

theorem fileLe_total (s : SortBy) (a b : FileRec) :
    (fileLe s a b || fileLe s b a) = true := by
  rw [Bool.or_eq_true]
  rcases primLe_total s a b with h | h
  · by_cases h2 : primLe s b a = true
    · rcases le_total a.path b.path with hp | hp
      · exact Or.inl (fileLe_true_iff s a b |>.mpr ⟨h, fun _ => hp⟩)
      · exact Or.inr (fileLe_true_iff s b a |>.mpr ⟨h2, fun _ => hp⟩)
    · exact Or.inl (fileLe_true_iff s a b |>.mpr ⟨h, fun hc => absurd hc h2⟩)
  · by_cases h2 : primLe s a b = true
    · rcases le_total a.path b.path with hp | hp
      · exact Or.inl (fileLe_true_iff s a b |>.mpr ⟨h2, fun _ => hp⟩)
      · exact Or.inr (fileLe_true_iff s b a |>.mpr ⟨h, fun _ => hp⟩)
    · exact Or.inr (fileLe_true_iff s b a |>.mpr ⟨h, fun hc => absurd hc h2⟩)

theorem fileLe_trans (s : SortBy) (a b c : FileRec)
    (hab : fileLe s a b = true) (hbc : fileLe s b c = true) :
    fileLe s a c = true := by
  rw [fileLe_true_iff] at hab hbc ⊢
  refine ⟨primLe_trans s a b c hab.1 hbc.1, fun hca => ?_⟩
  have hba : primLe s b a = true := primLe_trans s b c a hbc.1 hca
  have hcb : primLe s c b = true := primLe_trans s c a b hca hab.1
  exact le_trans (hab.2 hba) (hbc.2 hcb)

/-- C4: with `reverse = False`, `sort_files` returns a permutation of its
input ordered by the requested key, any two records equal on that key
appearing in ascending path-name order; when path names are distinct the
output is determined by the input's contents alone (any permutation of
the same records sorts identically), so the listing order is
deterministic even when files share size, format or modified time. -/
theorem C4_sort_keyed_name_tiebreak_deterministic
    (files : List FileRec) (s : SortBy)
    (hnd : (files.map FileRec.path).Nodup) :
    (sort_files files s false).Perm files ∧
    List.Pairwise
      (fun a b => primLe s a b = true ∧
        (primLe s b a = true → a.path ≤ b.path))
      (sort_files files s false) ∧
    (∀ l₂, files.Perm l₂ → sort_files files s false = sort_files l₂ s false) := by
  have hsorted : ∀ (l : List FileRec),
      List.Pairwise (fun a b => fileLe s a b = true) (l.mergeSort (fileLe s)) :=
    fun l => List.sorted_mergeSort (fileLe_trans s) (fileLe_total s) l
  have hperm : ∀ (l : List FileRec), (l.mergeSort (fileLe s)).Perm l :=
    fun l => List.mergeSort_perm l _
  refine ⟨?_, ?_, ?_⟩
  · unfold sort_files
    simpa using hperm files
  · unfold sort_files
    simp only [if_neg (Bool.false_ne_true)]
    exact (hsorted files).imp (fun h => (fileLe_true_iff s _ _).mp h)
  · intro l₂ h12
    unfold sort_files
    simp only [if_neg (Bool.false_ne_true)]
    have hr : IsAntisymm FileRec
        (fun a b => fileLe s a b = true ∧ a.path ≠ b.path) := by
      constructor
      intro a b hab hba
      have h1 := (fileLe_true_iff s a b).mp hab.1
      have h2 := (fileLe_true_iff s b a).mp hba.1
      have hpeq : a.path = b.path :=
        le_antisymm (h1.2 h2.1) (h2.2 h1.1)
      exact absurd hpeq hab.2
    have hndpw : List.Pairwise (fun a b : FileRec => a.path ≠ b.path) files := by
      have := (List.pairwise_map).mp hnd
      exact this
    have hsymm : ∀ {x y : FileRec}, x.path ≠ y.path → y.path ≠ x.path :=
      fun h => Ne.symm h
    have hnd1 : List.Pairwise (fun a b : FileRec => a.path ≠ b.path)
        (files.mergeSort (fileLe s)) :=
      ((hperm files).pairwise_iff hsymm).mpr hndpw
    have hnd2 : List.Pairwise (fun a b : FileRec => a.path ≠ b.path)
        (l₂.mergeSort (fileLe s)) := by
      have hpw2 : List.Pairwise (fun a b : FileRec => a.path ≠ b.path) l₂ :=
        (h12.pairwise_iff hsymm).mp hndpw
      exact ((hperm l₂).pairwise_iff hsymm).mpr hpw2
    have hps : (files.mergeSort (fileLe s)).Perm (l₂.mergeSort (fileLe s)) :=
      (hperm files).trans (h12.trans (hperm l₂).symm)
    exact @List.eq_of_perm_of_sorted _ _ hr _ _ hps
      ((hsorted files).and hnd1) ((hsorted l₂).and hnd2)

/-- Witness for C4: two records sharing size 10, names `b` and `a`;
sorting by size ascending puts `a` first, and sorting any permutation
gives the same list. -/
theorem C4_sort_keyed_name_tiebreak_deterministic_witness :
    (sort_files [FileRec.mk "b" 10 none 0 "mp3",
        FileRec.mk "a" 10 none 0 "mp3"] SortBy.size false).Perm
      [FileRec.mk "b" 10 none 0 "mp3", FileRec.mk "a" 10 none 0 "mp3"] ∧
    List.Pairwise
      (fun a b => primLe SortBy.size a b = true ∧
        (primLe SortBy.size b a = true → a.path ≤ b.path))
      (sort_files [FileRec.mk "b" 10 none 0 "mp3",
        FileRec.mk "a" 10 none 0 "mp3"] SortBy.size false) ∧
    (∀ l₂, ([FileRec.mk "b" 10 none 0 "mp3",
        FileRec.mk "a" 10 none 0 "mp3"] : List FileRec).Perm l₂ →
      sort_files [FileRec.mk "b" 10 none 0 "mp3",
          FileRec.mk "a" 10 none 0 "mp3"] SortBy.size false =
        sort_files l₂ SortBy.size false) :=
  C4_sort_keyed_name_tiebreak_deterministic
    [FileRec.mk "b" 10 none 0 "mp3", FileRec.mk "a" 10 none 0 "mp3"]
    SortBy.size (by decide)

/-! ### C8: `TTSService.create_speech` chunking -/

/-- Total character count of a sentence list. -/
def totalLen (ss : List String) : Nat := (ss.map String.length).sum

/-- Modelled from the spec: the greedy grouping inside
`split_text_for_tts` (module `utils`, not among the provided sources) —
consecutive sentences are packed into the current chunk while it stays
within `limit` characters, otherwise a new chunk starts.  `cur` is the
current chunk reversed, `curLen` its character count. -/
def splitAux (limit : Nat) :
    List String → List String → Nat → List (List String)
  | [], cur, _ => [cur.reverse]
  | s :: rest, cur, curLen =>
      if curLen + s.length ≤ limit then
        splitAux limit rest (s :: cur) (curLen + s.length)
      else cur.reverse :: splitAux limit rest [s] s.length

/-- Modelled from the spec: `split_text_for_tts` — the text, given as its
list of sentences (split at sentence/paragraph boundaries, never
mid-word), is grouped into chunks of at most `limit` characters (the
remote API's single-request character limit); text within the limit stays
a single chunk. -/
def split_text_for_tts (limit : Nat) (sentences : List String) :
    List (List String) :=
  match sentences with
  | [] => [[]]
  | s :: rest => splitAux limit rest [s] s.length

/-- Embedding of `TTSService.create_speech` over the chunk list: one
chunk means a single remote request whose audio is written as-is; several
chunks are synthesized concurrently (tasks completing in `order`) and the
audio buffers concatenated in chunk order before the single write.  `tts`
is the remote synthesis producing an audio byte buffer; the result is the
written file content together with the number of remote requests. -/
def create_speech (limit : Nat) (tts : List String → List Nat)
    (sentences : List String) (order : List Nat) : List Nat × Nat :=
  let text_chunks := split_text_for_tts limit sentences
  if text_chunks.length = 1 then
    (tts (text_chunks.head?.getD []), 1)
  else
    let audio_chunks := asyncGather tts text_chunks order
    ((audio_chunks.map (fun o => o.getD [])).flatten, text_chunks.length)

theorem splitAux_flatten (limit : Nat) :
    ∀ (rest cur : List String) (curLen : Nat),
      (splitAux limit rest cur curLen).flatten = cur.reverse ++ rest := by
  intro rest
  induction rest with
  | nil =>
      intro cur curLen
      simp [splitAux]
  | cons s rs ih =>
      intro cur curLen
      unfold splitAux
      by_cases h : curLen + s.length ≤ limit
      · rw [if_pos h, ih]
        simp
      · rw [if_neg h]
        simp [ih]

theorem splitAux_single (limit : Nat) :
    ∀ (rest cur : List String) (curLen : Nat),
      curLen + totalLen rest ≤ limit →
      splitAux limit rest cur curLen = [cur.reverse ++ rest] := by
  intro rest
  induction rest with
  | nil =>
      intro cur curLen _
      simp [splitAux]
  | cons s rs ih =>
      intro cur curLen h
      have hlen : totalLen (s :: rs) = s.length + totalLen rs := by
        simp [totalLen]
      have h1 : curLen + s.length ≤ limit := by
        rw [hlen] at h
        omega
      unfold splitAux
      rw [if_pos h1, ih _ _ (by rw [hlen] at h; omega)]
      simp

theorem splitAux_chunk_le (limit : Nat) :
    ∀ (rest cur : List String) (curLen : Nat),
      curLen ≤ limit → (∀ x ∈ rest, x.length ≤ limit) →
      totalLen cur.reverse = curLen →
      ∀ c ∈ splitAux limit rest cur curLen, totalLen c ≤ limit := by
  intro rest
  induction rest with
  | nil =>
      intro cur curLen hcur _ htot c hc
      simp [splitAux] at hc
      rw [hc, htot]
      exact hcur
  | cons s rs ih =>
      intro cur curLen hcur hrest htot c hc
      unfold splitAux at hc
      by_cases h : curLen + s.length ≤ limit
      · rw [if_pos h] at hc
        refine ih (s :: cur) (curLen + s.length) h
          (fun x hx => hrest x (List.mem_cons_of_mem _ hx)) ?_ c hc
        simp [totalLen, List.sum_append] at htot ⊢
        omega
      · rw [if_neg h] at hc
        rcases List.mem_cons.mp hc with hceq | hcmem
        · rw [hceq, htot]
          exact hcur
        · refine ih [s] s.length (hrest s (List.mem_cons_self _ _))
            (fun x hx => hrest x (List.mem_cons_of_mem _ hx)) ?_ c hcmem
          simp [totalLen]

theorem splitAux_length_pos (limit : Nat) :
    ∀ (rest cur : List String) (curLen : Nat),
      1 ≤ (splitAux limit rest cur curLen).length := by
  intro rest
  induction rest with
  | nil =>
      intro cur curLen
      simp [splitAux]
  | cons s rs ih =>
      intro cur curLen
      unfold splitAux
      by_cases h : curLen + s.length ≤ limit
      · rw [if_pos h]
        exact ih _ _
      · rw [if_neg h]
        simp

theorem split_flatten (limit : Nat) (ss : List String) :
    (split_text_for_tts limit ss).flatten = ss := by
  cases ss with
  | nil => simp [split_text_for_tts]
  | cons s rest =>
      unfold split_text_for_tts
      rw [splitAux_flatten]
      simp

theorem split_single (limit : Nat) (ss : List String)
    (h : totalLen ss ≤ limit) : split_text_for_tts limit ss = [ss] := by
  cases ss with
  | nil => rfl
  | cons s rest =>
      show splitAux limit rest [s] s.length = [s :: rest]
      rw [splitAux_single limit rest [s] s.length
        (by simp [totalLen] at h ⊢; omega)]
      simp

theorem split_multi (limit : Nat) (ss : List String)
    (hsent : ∀ s ∈ ss, s.length ≤ limit) (h : limit < totalLen ss) :
    2 ≤ (split_text_for_tts limit ss).length := by
  cases ss with
  | nil => simp [totalLen] at h
  | cons s rest =>
      have hpos := splitAux_length_pos limit rest [s] s.length
      by_contra hlt
      have hone : (split_text_for_tts limit (s :: rest)).length = 1 := by
        have heq : split_text_for_tts limit (s :: rest) =
            splitAux limit rest [s] s.length := rfl
        rw [heq] at hlt ⊢
        omega
      obtain ⟨c, hc⟩ := List.length_eq_one.mp hone
      have hflat := split_flatten limit (s :: rest)
      rw [hc] at hflat
      simp at hflat
      have hle : totalLen c ≤ limit := by
        have := splitAux_chunk_le limit rest [s] s.length
          (hsent s (List.mem_cons_self _ _))
          (fun x hx => hsent x (List.mem_cons_of_mem _ hx))
          (by simp [totalLen])
        apply this
        have hc' : c ∈ split_text_for_tts limit (s :: rest) := by
          rw [hc]
          simp
        exact hc'
      rw [hflat] at hle
      omega

/-- C8: text whose total length is within the remote API's per-request
character limit is synthesized as one single request with no
concatenation; longer text is split into more than one chunk, every chunk
is synthesized (one request per chunk), and the output file content is the
concatenation of the per-chunk audio buffers in original chunk order, for
every completion order of the concurrent synthesis tasks. -/
theorem C8_tts_chunk_concat_in_order (limit : Nat)
    (tts : List String → List Nat) (sentences : List String)
    (order : List Nat)
    (hsent : ∀ s ∈ sentences, s.length ≤ limit)
    (horder : order.Perm
      (List.range (split_text_for_tts limit sentences).length)) :
    (totalLen sentences ≤ limit →
      split_text_for_tts limit sentences = [sentences] ∧
      create_speech limit tts sentences order = (tts sentences, 1)) ∧
    (limit < totalLen sentences →
      2 ≤ (split_text_for_tts limit sentences).length ∧
      (split_text_for_tts limit sentences).flatten = sentences ∧
      create_speech limit tts sentences order =
        (((split_text_for_tts limit sentences).map tts).flatten,
          (split_text_for_tts limit sentences).length)) := by
  constructor
  · intro h
    have hs := split_single limit sentences h
    refine ⟨hs, ?_⟩
    unfold create_speech
    rw [hs]
    simp
  · intro h
    have h2 := split_multi limit sentences hsent h
    refine ⟨h2, split_flatten limit sentences, ?_⟩
    have hg := asyncGather_eq_map tts (split_text_for_tts limit sentences)
      order (fun j hj => horder.mem_iff.mpr (List.mem_range.mpr hj))
    have hne : ¬ (split_text_for_tts limit sentences).length = 1 := by omega
    simp only [create_speech]
    rw [if_neg hne, hg]
    simp only [List.map_map]
    have hcomp : ((fun o : Option (List Nat) => o.getD []) ∘
        fun a => some (tts a)) = tts := by
      funext a
      rfl
    rw [hcomp]

/-- Witness for C8: sentences of lengths 3, 2, 3 with limit 5 split into
two chunks, synthesized with reversed completion order `[1, 0]`; the
output buffer is still in chunk order. -/
theorem C8_tts_chunk_concat_in_order_witness :
    (totalLen ["aaa", "bb", "ccc"] ≤ 5 →
      split_text_for_tts 5 ["aaa", "bb", "ccc"] = [["aaa", "bb", "ccc"]] ∧
      create_speech 5 (fun c => c.map String.length) ["aaa", "bb", "ccc"]
          [1, 0] = ((fun c => c.map String.length) ["aaa", "bb", "ccc"], 1)) ∧
    (5 < totalLen ["aaa", "bb", "ccc"] →
      2 ≤ (split_text_for_tts 5 ["aaa", "bb", "ccc"]).length ∧
      (split_text_for_tts 5 ["aaa", "bb", "ccc"]).flatten =
        ["aaa", "bb", "ccc"] ∧
      create_speech 5 (fun c => c.map String.length) ["aaa", "bb", "ccc"]
          [1, 0] =
        (((split_text_for_tts 5 ["aaa", "bb", "ccc"]).map
            (fun c => c.map String.length)).flatten,
          (split_text_for_tts 5 ["aaa", "bb", "ccc"]).length)) :=
  C8_tts_chunk_concat_in_order 5 (fun c => c.map String.length)
    ["aaa", "bb", "ccc"] [1, 0] (by decide) (by decide)

end Whisper
